import Mathlib

/-!
Verification of the Mind-Map generator's parse/tree core.

Shallow embedding of `src/lib/parser.ts` and the toggle operation of
`src/components/MindMap/MindMapContainer.tsx`.

Strings are modelled as `List Char`.  JavaScript's `trim`/`trimStart` and the
regex class `\s` are modelled by one whitespace predicate covering the ASCII
whitespace characters (space, tab, newline, carriage return, vertical tab,
form feed); the inputs of interest contain no exotic Unicode spacing.
`toLowerCase` is modelled by `Char.toLower` (ASCII case folding).
-/

/-- Whitespace test, modelling both JS `trim`/`trimStart` and regex `\s`
on the ASCII range. -/
def isWs (c : Char) : Bool :=
  c = ' ' || c = '\t' || c = '\n' || c = '\r' || c = '\x0b' || c = '\x0c'

/-- JS `String.prototype.trim`: drop whitespace from both ends. -/
def jsTrim (l : List Char) : List Char :=
  ((l.dropWhile isWs).reverse.dropWhile isWs).reverse

/-- A classified line: `ParsedLine` of `src/types/mindmap.ts` as produced by
`parseTextToLines`. -/
structure ParsedLine where
  content : List Char
  level : Nat
  lineNumber : Nat
deriving DecidableEq, Repr

/-- The bullet characters of the regex class in
`trimmedLine.replace(/^[•·▪▫‣⁃-]\s*\x2f, '')`. -/
def bulletChars : List Char := ['•', '·', '▪', '▫', '‣', '⁃', '-']

/-- The tree-connector characters of `replace(/^[│├└]\s*\x2f, '')`. -/
def treeChars : List Char := ['│', '├', '└']

/-- One non-global anchored `replace` of a character of `cls` followed by
`\s*` (greedy, possibly empty): strips at most one occurrence. -/
def stripClassWs (cls : List Char) (l : List Char) : List Char :=
  match l with
  | [] => []
  | c :: rest => if c ∈ cls then rest.dropWhile isWs else l

/-- One non-global anchored `replace` of `[\d]+\.\s*`: one or more digits,
a literal dot, then greedy (possibly empty) whitespace. -/
def stripNumbering (l : List Char) : List Char :=
  let ds := l.takeWhile Char.isDigit
  if ds.isEmpty then l
  else
    match l.drop ds.length with
    | '.' :: rest => rest.dropWhile isWs
    | _ => l

/-- The cleanup chain of `parseTextToLines`: the three `replace` calls applied
in sequence, then a final trim. -/
def cleanContent (trimmedLine : List Char) : List Char :=
  jsTrim (stripNumbering (stripClassWs treeChars (stripClassWs bulletChars trimmedLine)))

/-- The function `parseTextToLines` of `src/lib/parser.ts`: split on newline, per line
compute the indentation level from the count of leading whitespace characters
(two per level, floored), strip decorations, and keep the non-empty results
with their 1-based original line numbers. -/
def parseTextToLines (text : List Char) : List ParsedLine :=
  if (jsTrim text).isEmpty then []
  else
    (text.splitOn '\n').enum.filterMap fun p =>
      let line := p.2
      let trimmedLine := jsTrim line
      if trimmedLine.isEmpty then none
      else
        let leadingSpaces := line.length - (line.dropWhile isWs).length
        let level := leadingSpaces / 2
        let cleaned := cleanContent trimmedLine
        if cleaned.isEmpty then none
        else some ⟨cleaned, level, p.1 + 1⟩

/-- The entity `MindMapNode` of `src/types/mindmap.ts`.  The JS string id `node-k` is
modelled by the counter value `k` (the rendering `k ↦ "node-" ++ toString k`
is injective).  The `parent` back-reference cannot live inside a purely
functional tree; it is modelled separately by the assignment trace
`BuildState.pmap` below. -/
inductive MindMapNode where
  | mk (id : Nat) (label : List Char) (level : Nat) (isExpanded : Bool)
      (children : List MindMapNode)
deriving Repr

def MindMapNode.id : MindMapNode → Nat
  | .mk i _ _ _ _ => i

def MindMapNode.label : MindMapNode → List Char
  | .mk _ l _ _ _ => l

def MindMapNode.level : MindMapNode → Nat
  | .mk _ _ lvl _ _ => lvl

def MindMapNode.isExpanded : MindMapNode → Bool
  | .mk _ _ _ e _ => e

def MindMapNode.children : MindMapNode → List MindMapNode
  | .mk _ _ _ _ cs => cs

/-- The function `flattenNodes` of `src/lib/parser.ts`: pre-order traversal,
ignoring `isExpanded` (the source's guard recursing only into non-empty
children lists is a no-op, since traversing an empty list adds nothing). -/
def flattenNodes : List MindMapNode → List MindMapNode
  | [] => []
  | .mk i l lvl e cs :: rest =>
      .mk i l lvl e cs :: (flattenNodes cs ++ flattenNodes rest)

/-! The tree builder.

`buildMindMapTree` of `src/lib/parser.ts` is an imperative loop mutating a
`rootNodes` array and a `nodeStack` array, with each new node appended (by
reference) to the top of the stack's `children` (or to `rootNodes` when the
stack is empty), the `parent` field set to the stack top, and the while loop
popping every stack entry whose `level` is `>=` the new line's level.

The purely functional simulation below defers the attachment of a node to
the moment it is popped (its subtree is then complete); the stack holds each
open node together with the children accumulated so far.  Popping in the
source is `while (top.level >= line.level) pop()`, i.e. the stack splits as
`takeWhile (line.level ≤ ·.level)` / `dropWhile`; each popped node becomes
the last child of the entry below it, and a popped bottom entry becomes the
next finalized root.  Children are attached in pop order, which equals the
source's creation/push order (only the direct child of an entry attaches to
it, and direct children pop in creation order), so the resulting forest is
the one the source's mutation produces.  The `node-k` id counter of
`generateNodeId` is threaded explicitly as `ctr`, and the `node.parent =
parent` assignments are recorded in the trace `pmap` (child id ↦ parent id);
a root node receives no assignment. -/

/-- Append `c` as last child of `p`, modelling `parent.children.push(node)`. -/
def addChild (p c : MindMapNode) : MindMapNode :=
  match p with
  | .mk i l lvl e cs => .mk i l lvl e (cs ++ [c])

/-- Collapse a popped stack segment (top first): each node becomes the last
child of the node below it, yielding the completed subtree of the segment's
bottom entry. -/
def collapseTop (h : MindMapNode) (t : List MindMapNode) : MindMapNode :=
  t.foldl (fun acc p => addChild p acc) h

/-- The source's pop loop for a new line at level `lvl`: pop every entry with
`level ≥ lvl` (attaching each popped node to the entry below it; a popped
bottom entry is appended to the finalized roots). -/
def popAttach (lvl : Nat) (roots stack : List MindMapNode) :
    List MindMapNode × List MindMapNode :=
  match stack.takeWhile (fun n => lvl ≤ n.level),
        stack.dropWhile (fun n => lvl ≤ n.level) with
  | [], _ => (roots, stack)
  | h :: t, [] => (roots ++ [collapseTop h t], [])
  | h :: t, p :: r => (roots, addChild p (collapseTop h t) :: r)

/-- The loop state of `buildMindMapTree`: finalized roots, the open-node
stack (top first), the trace of `node.parent = parent` assignments
(child id, parent id), and the `generateNodeId` counter. -/
structure BuildState where
  roots : List MindMapNode
  stack : List MindMapNode
  pmap : List (Nat × Nat)
  ctr : Nat
deriving Repr

/-- One iteration of the `lines.forEach` body of `buildMindMapTree`. -/
def buildStep (s : BuildState) (line : ParsedLine) : BuildState :=
  let i := s.ctr + 1
  let node : MindMapNode := .mk i line.content line.level true []
  match popAttach line.level s.roots s.stack with
  | (roots, stack) =>
    let pmap := match stack with
      | [] => s.pmap
      | p :: _ => (i, p.id) :: s.pmap
    ⟨roots, node :: stack, pmap, i⟩

/-- The final state of the loop of `buildMindMapTree`, starting from id
counter `ctr0`. -/
def buildRun (ctr0 : Nat) (lines : List ParsedLine) : BuildState :=
  lines.foldl buildStep ⟨[], [], [], ctr0⟩

/-- The function `buildMindMapTree` of `src/lib/parser.ts`: run the loop, then flush the
still-open stack (every entry has `level ≥ 0`, so `popAttach 0` pops all of
them, completing the subtrees that the source had been mutating in place). -/
def buildMindMapTree (ctr0 : Nat) (lines : List ParsedLine) : List MindMapNode :=
  if lines.isEmpty then []
  else
    let s := buildRun ctr0 lines
    (popAttach 0 s.roots s.stack).1

/-- The `node.parent = parent` assignment trace of the same run: the model of
the `parent` back-references of the returned forest (by unique id). -/
def buildParentMap (ctr0 : Nat) (lines : List ParsedLine) : List (Nat × Nat) :=
  (buildRun ctr0 lines).pmap

/-- The composed pipeline `parseTextToMindMap` of `src/lib/parser.ts`. -/
def parseTextToMindMap (ctr0 : Nat) (text : List Char) : List MindMapNode :=
  buildMindMapTree ctr0 (parseTextToLines text)

/-- Lower-casing of `searchNodes` (`label.toLowerCase()`, ASCII folding). -/
def toLowerStr (l : List Char) : List Char := l.map Char.toLower

/-- JS `String.prototype.includes`: substring test. -/
def strIncludes (hay needle : List Char) : Bool :=
  hay.tails.any fun t => needle.isPrefixOf t

/-- The function `searchNodes` of `src/lib/parser.ts`. -/
def searchNodes (nodes : List MindMapNode) (query : List Char) : List MindMapNode :=
  if (jsTrim query).isEmpty then []
  else (flattenNodes nodes).filter fun n =>
    strIncludes (toLowerStr n.label) (toLowerStr query)

/-- The recursive `toggleNode` closure of `handleToggleExpand` in
`src/components/MindMap/MindMapContainer.tsx`: map over the list; a node
whose id matches has `isExpanded` flipped (children untouched); otherwise,
when it has children, the children are rebuilt recursively. -/
def toggleNode (nid : Nat) : List MindMapNode → List MindMapNode
  | [] => []
  | .mk i l lvl e cs :: rest =>
      (if i = nid then .mk i l lvl (!e) cs
       else if cs.length > 0 then .mk i l lvl e (toggleNode nid cs)
       else .mk i l lvl e cs) :: toggleNode nid rest

/-- The operation `handleToggleExpand` applied to a forest. -/
def handleToggleExpand (nid : Nat) (nodes : List MindMapNode) : List MindMapNode :=
  toggleNode nid nodes

/-! Helper lemmas about the classifier -/

theorem splitOn_eq_single {l : List Char} (h : '\n' ∉ l) :
    l.splitOn '\n' = [l] := by
  have hx : ∀ x ∈ l, ¬((x == '\n') = true) := by
    intro x hxl hbeq
    rw [beq_iff_eq] at hbeq
    exact h (hbeq ▸ hxl)
  simpa [List.splitOn] using List.splitOnP_eq_single (· == '\n') l hx

theorem dropWhile_append_of_forall {p : Char → Bool} {l₁ l₂ : List Char}
    (h : ∀ c ∈ l₁, p c = true) : (l₁ ++ l₂).dropWhile p = l₂.dropWhile p := by
  induction l₁ with
  | nil => rfl
  | cons a t ih =>
      have ha : p a = true := h a (List.mem_cons_self a t)
      simp only [List.cons_append, List.dropWhile_cons, ha, if_true]
      exact ih fun c hc => h c (List.mem_cons_of_mem a hc)

theorem jsTrim_of_trimmed {s : List Char} (h1 : s.dropWhile isWs = s)
    (h2 : s.reverse.dropWhile isWs = s.reverse) : jsTrim s = s := by
  simp [jsTrim, h1, h2]

/-- Evaluation of the classifier on a one-line text whose cleaned content is
non-empty. -/
theorem parseTextToLines_single (line : List Char)
    (hnl : '\n' ∉ line) (hclean : ¬(cleanContent (jsTrim line)).isEmpty) :
    parseTextToLines line =
      [⟨cleanContent (jsTrim line),
        (line.length - (line.dropWhile isWs).length) / 2, 1⟩] := by
  have hclean' : (cleanContent (jsTrim line)).isEmpty = false := by
    simpa using hclean
  have hne : (jsTrim line).isEmpty = false := by
    cases hje : jsTrim line with
    | nil => exact absurd (by rw [hje]; decide) hclean
    | cons a t => rfl
  have hne2 : jsTrim line ≠ [] := by simpa [List.isEmpty_iff] using hne
  have hclean2 : cleanContent (jsTrim line) ≠ [] := by
    simpa [List.isEmpty_iff] using hclean'
  unfold parseTextToLines
  rw [splitOn_eq_single hnl]
  simp [hne, hclean', List.enum, List.filterMap_cons, hne2, hclean2]

/-- Claim C1, as stated, is false: the classifier's three `replace` calls run
in sequence on the progressively stripped string, so `"- 1. Item"` loses the
bullet and then also the exposed numbering marker, producing `"Item"` rather
than `"1. Item"`. -/
theorem cleanContent_seq_counterexample :
    (parseTextToLines (("- 1. Item" : String).toList)).map ParsedLine.content
        = [("Item" : String).toList] ∧
      [("Item" : String).toList] ≠ [("1. Item" : String).toList] := by
  constructor
  · decide
  · decide

/-- C1 (amended): stripping is single-pass per decoration class, in the fixed
order bullets, tree-connectors, numbering, each applied to the result of the
previous strip.  Stripping the leading bullet of `'-' :: ' ' :: s` exposes
`s` to the remaining two strips: the cleanup of the decorated line equals the
cleanup of `s` itself, so an inner numbering marker of `s` is removed as
well; concretely `"- 1. Item"` cleans to `"Item"`, not `"1. Item"`. -/
theorem cleanContent_bullet_exposes_rest (s : List Char)
    (h1 : s.dropWhile isWs = s)
    (h2 : ∀ c ∈ s.head?, c ∉ bulletChars) :
    cleanContent ('-' :: ' ' :: s) = cleanContent s ∧
      (parseTextToLines (("- 1. Item" : String).toList)).map ParsedLine.content
        = [("Item" : String).toList] := by
  refine ⟨?_, by decide⟩
  have hbul : stripClassWs bulletChars ('-' :: ' ' :: s) = s := by
    simp only [stripClassWs]
    rw [if_pos (by decide)]
    simpa [isWs] using h1
  have hs : stripClassWs bulletChars s = s := by
    match s with
    | [] => rfl
    | c :: rest =>
        simp only [stripClassWs]
        rw [if_neg (h2 c (by simp))]
  simp [cleanContent, hbul, hs]

/-- Witness for `cleanContent_bullet_exposes_rest` at `s = "1. Item"`. -/
theorem cleanContent_bullet_exposes_rest_witness :
    cleanContent ('-' :: ' ' :: ("1. Item" : String).toList)
        = cleanContent (("1. Item" : String).toList) ∧
      (parseTextToLines (("- 1. Item" : String).toList)).map ParsedLine.content
        = [("Item" : String).toList] :=
  cleanContent_bullet_exposes_rest (("1. Item" : String).toList)
    (by decide) (by decide)

/-- Claim C4, as stated, is false: `line.trimStart()` removes tabs, so the
`leadingSpaces` count includes leading tabs; a line starting with two tabs is
classified at depth 1, not 0. -/
theorem tab_depth_counterexample :
    (parseTextToLines (("\t\tTabbed" : String).toList)).map ParsedLine.level
        = [1] ∧ (1 : Nat) ≠ 0 := by
  constructor
  · decide
  · decide

/-- C4 (amended): leading tabs are counted by the whitespace-based
`leadingSpaces` computation exactly like spaces, so a line of `n` leading
tabs followed by trimmed content `s` is classified at depth `n / 2` — depth 0
holds only for zero or one leading tab. -/
theorem leadingTabs_counted (n : Nat) (s : List Char)
    (h1 : s.dropWhile isWs = s)
    (h2 : s.reverse.dropWhile isWs = s.reverse)
    (h3 : '\n' ∉ s)
    (h4 : ¬(cleanContent s).isEmpty) :
    parseTextToLines (List.replicate n '\t' ++ s)
      = [⟨cleanContent s, n / 2, 1⟩] := by
  have hs : s ≠ [] := by
    intro he
    subst he
    exact h4 (by decide)
  have hdropTabs : (List.replicate n '\t' ++ s).dropWhile isWs = s := by
    rw [dropWhile_append_of_forall fun c hc => by
      rw [List.eq_of_mem_replicate hc]; rfl]
    exact h1
  have hnl : '\n' ∉ List.replicate n '\t' ++ s := by
    intro hmem
    rcases List.mem_append.1 hmem with hmem | hmem
    · have := List.eq_of_mem_replicate hmem
      simp at this
    · exact h3 hmem
  have hsplit : (List.replicate n '\t' ++ s).splitOn '\n'
      = [List.replicate n '\t' ++ s] := splitOn_eq_single hnl
  have htrimFull : jsTrim (List.replicate n '\t' ++ s) = s := by
    simp [jsTrim, hdropTabs, h2]
  have hlen : (List.replicate n '\t' ++ s).length
      - ((List.replicate n '\t' ++ s).dropWhile isWs).length = n := by
    rw [hdropTabs]
    simp
  rw [parseTextToLines_single _ hnl (by rw [htrimFull]; exact h4),
    htrimFull, hlen]

/-- Witness for `leadingTabs_counted`: five leading tabs give depth 2. -/
theorem leadingTabs_counted_witness :
    parseTextToLines (List.replicate 5 '\t' ++ ("X" : String).toList)
      = [⟨cleanContent (("X" : String).toList), 5 / 2, 1⟩] :=
  leadingTabs_counted 5 (("X" : String).toList)
    (by decide) (by decide) (by decide) (by decide)

/-- Claim C5, as stated, is false: the numbering regex `[\d]+\.\s*` makes the
whitespace after the dot optional, so `"3.14 pie"` is stripped to
`"14 pie"`. -/
theorem numbering_optional_ws_counterexample :
    (parseTextToLines (("3.14 pie" : String).toList)).map ParsedLine.content
        = [("14 pie" : String).toList] ∧
      [("14 pie" : String).toList] ≠ [("3.14 pie" : String).toList] := by
  decide

theorem takeWhile_append_drop_self (p : Char → Bool) (l : List Char) :
    l.takeWhile p ++ l.drop (l.takeWhile p).length = l := by
  induction l with
  | nil => rfl
  | cons a t ih =>
      by_cases hp : p a
      · simp only [List.takeWhile_cons, hp, if_true, List.length_cons,
          List.cons_append, List.drop_succ_cons]
        rw [ih]
      · simp [List.takeWhile_cons, hp]

theorem takeWhile_append_not {p : Char → Bool} {l₁ l₂ : List Char}
    (h : ∀ c ∈ l₁, p c = true) (h2 : ∀ c ∈ l₂.head?, p c = false) :
    (l₁ ++ l₂).takeWhile p = l₁ := by
  induction l₁ with
  | nil =>
      cases l₂ with
      | nil => rfl
      | cons a t => simp [List.takeWhile_cons, h2 a rfl]
  | cons a t ih =>
      have ha : p a = true := h a (List.mem_cons_self a t)
      simp only [List.cons_append, List.takeWhile_cons, ha, if_true]
      rw [ih fun c hc => h c (List.mem_cons_of_mem a hc)]

/-- The numbering strip on a line decomposed as digits, dot, remainder:
the digits, the dot and any (possibly zero) whitespace after the dot are
removed. -/
theorem stripNumbering_digits_dot (ds s : List Char) (hds : ds ≠ [])
    (hdig : ∀ c ∈ ds, c.isDigit = true) :
    stripNumbering (ds ++ '.' :: s) = s.dropWhile isWs := by
  have htw : (ds ++ '.' :: s).takeWhile Char.isDigit = ds :=
    takeWhile_append_not hdig (by intro c hc; simp at hc; rw [← hc]; rfl)
  unfold stripNumbering
  simp [htw, List.isEmpty_iff, hds, List.drop_left]

/-- C5 (amended): the classifier's numbering strip fires exactly on trimmed
lines of the form digits, dot, remainder — the whitespace after the dot is
optional (`\s*`), not required; when it fires it removes the digits, the dot
and any whitespace directly after the dot.  In particular `"3.14 pie"` is
stripped to `"14 pie"`. -/
theorem stripNumbering_spec (l : List Char) :
    (stripNumbering l ≠ l ↔
      ∃ ds s, ds ≠ [] ∧ (∀ c ∈ ds, c.isDigit = true) ∧ l = ds ++ '.' :: s) ∧
    (∀ ds s, ds ≠ [] → (∀ c ∈ ds, c.isDigit = true) →
      stripNumbering (ds ++ '.' :: s) = s.dropWhile isWs) ∧
    (parseTextToLines (("3.14 pie" : String).toList)).map ParsedLine.content
      = [("14 pie" : String).toList] := by
  refine ⟨⟨?_, ?_⟩, fun ds s hds hdig => stripNumbering_digits_dot ds s hds hdig,
    by decide⟩
  · intro hne
    unfold stripNumbering at hne
    by_cases htw : (l.takeWhile Char.isDigit).isEmpty
    · simp [htw] at hne
    · rcases hdrop : l.drop (l.takeWhile Char.isDigit).length with _ | ⟨c, rest⟩
      · simp [htw, hdrop] at hne
      · by_cases hc : c = '.'
        · subst hc
          refine ⟨l.takeWhile Char.isDigit, rest, ?_, ?_, ?_⟩
          · simpa [List.isEmpty_iff] using htw
          · intro x hx
            exact List.mem_takeWhile_imp hx
          · rw [← hdrop, takeWhile_append_drop_self]
        · simp [htw, hdrop, hc] at hne
  · rintro ⟨ds, s, hds, hdig, rfl⟩
    rw [stripNumbering_digits_dot ds s hds hdig]
    intro heq
    have hlen : (s.dropWhile isWs).length ≤ s.length :=
      (List.dropWhile_sublist _).length_le
    rw [heq] at hlen
    simp only [List.length_append, List.length_cons] at hlen
    omega

/-- Witness for `stripNumbering_spec` at digits `"3"` and remainder
`"14 pie"`. -/
theorem stripNumbering_spec_witness :
    stripNumbering (("3" : String).toList ++ '.' :: ("14 pie" : String).toList)
      = (("14 pie" : String).toList).dropWhile isWs :=
  (stripNumbering_spec (("3.14 pie" : String).toList)).2.1
    (("3" : String).toList) (("14 pie" : String).toList) (by decide) (by decide)

/-! Forest induction and node accessor lemmas -/

theorem forest_induction (motive : List MindMapNode → Prop) (h0 : motive [])
    (h1 : ∀ i l lvl e cs rest, motive cs → motive rest →
      motive (MindMapNode.mk i l lvl e cs :: rest)) :
    ∀ f, motive f := by
  have key : ∀ n (f : List MindMapNode), sizeOf f ≤ n → motive f := by
    intro n
    induction n with
    | zero =>
        intro f hf
        match f with
        | [] => exact h0
        | .mk i l lvl e cs :: rest => simp at hf
    | succ n ih =>
        intro f hf
        match f with
        | [] => exact h0
        | .mk i l lvl e cs :: rest =>
            simp only [List.cons.sizeOf_spec, MindMapNode.mk.sizeOf_spec] at hf
            exact h1 i l lvl e cs rest (ih cs (by omega)) (ih rest (by omega))
  exact fun f => key (sizeOf f) f (Nat.le_refl _)

@[simp] theorem MindMapNode.id_mk (i : Nat) (l : List Char) (lvl : Nat)
    (e : Bool) (cs : List MindMapNode) :
    (MindMapNode.mk i l lvl e cs).id = i := rfl

@[simp] theorem MindMapNode.label_mk (i : Nat) (l : List Char) (lvl : Nat)
    (e : Bool) (cs : List MindMapNode) :
    (MindMapNode.mk i l lvl e cs).label = l := rfl

@[simp] theorem MindMapNode.level_mk (i : Nat) (l : List Char) (lvl : Nat)
    (e : Bool) (cs : List MindMapNode) :
    (MindMapNode.mk i l lvl e cs).level = lvl := rfl

@[simp] theorem MindMapNode.isExpanded_mk (i : Nat) (l : List Char) (lvl : Nat)
    (e : Bool) (cs : List MindMapNode) :
    (MindMapNode.mk i l lvl e cs).isExpanded = e := rfl

@[simp] theorem MindMapNode.children_mk (i : Nat) (l : List Char) (lvl : Nat)
    (e : Bool) (cs : List MindMapNode) :
    (MindMapNode.mk i l lvl e cs).children = cs := rfl

/-! Toggle: C7 and C8 -/

theorem toggleNode_length (nid : Nat) :
    ∀ f : List MindMapNode, (toggleNode nid f).length = f.length := by
  refine forest_induction _ (by simp [toggleNode]) ?_
  intro i l lvl e cs rest _ ihrest
  simp only [toggleNode, List.length_cons, ihrest]

theorem toggleNode_map_id (nid : Nat) :
    ∀ f : List MindMapNode,
      (toggleNode nid f).map MindMapNode.id = f.map MindMapNode.id := by
  refine forest_induction _ (by simp [toggleNode]) ?_
  intro i l lvl e cs rest _ ihrest
  simp only [toggleNode, List.map_cons, ihrest, List.cons.injEq, and_true]
  split
  · rfl
  · split
    · rfl
    · rfl

/-- C8: toggling a node id that occurs nowhere in the forest is a no-op: the
recursion matches no node and rebuilds the forest unchanged (same ids,
labels, levels, children order, expansion flags); in particular no error is
possible (the operation is total). -/
theorem toggleExpand_unknown_id_noop (f : List MindMapNode) (nid : Nat)
    (h : nid ∉ (flattenNodes f).map MindMapNode.id) :
    handleToggleExpand nid f = f := by
  unfold handleToggleExpand
  revert h
  induction f using forest_induction with
  | h0 => intro _; simp [toggleNode]
  | h1 i l lvl e cs rest ihcs ihrest =>
      intro h
      simp only [flattenNodes, List.map_cons, List.map_append,
        List.mem_cons, List.mem_append, not_or, MindMapNode.id_mk,
        List.mem_map] at h
      obtain ⟨hne, hcs, hrest⟩ := h
      have hcs' : nid ∉ (flattenNodes cs).map MindMapNode.id := by
        simpa [List.mem_map] using hcs
      have hrest' : nid ∉ (flattenNodes rest).map MindMapNode.id := by
        simpa [List.mem_map] using hrest
      simp only [toggleNode, ihcs hcs', ihrest hrest', List.cons.injEq, and_true]
      rw [if_neg (fun he => hne he.symm)]
      split
      · rfl
      · rfl

/-- Witness for `toggleExpand_unknown_id_noop` on a two-node forest and the
absent id 99. -/
theorem toggleExpand_unknown_id_noop_witness :
    handleToggleExpand 99
        [MindMapNode.mk 1 [] 0 true [MindMapNode.mk 2 [] 1 false []]]
      = [MindMapNode.mk 1 [] 0 true [MindMapNode.mk 2 [] 1 false []]] :=
  toggleExpand_unknown_id_noop
    [MindMapNode.mk 1 [] 0 true [MindMapNode.mk 2 [] 1 false []]] 99
    (by simp [flattenNodes])

/-- What one toggle application may not change about each node, position by
position in pre-order: id, label, level, the ordered ids of its children, and
(for any node whose id differs from the toggled id) its expansion flag. -/
def unchangedBesides (nid : Nat) (a b : MindMapNode) : Prop :=
  a.id = b.id ∧ a.label = b.label ∧ a.level = b.level ∧
    a.children.map MindMapNode.id = b.children.map MindMapNode.id ∧
    (a.id ≠ nid → a.isExpanded = b.isExpanded)

theorem unchangedBesides_rfl (nid : Nat) (a : MindMapNode) :
    unchangedBesides nid a a :=
  ⟨rfl, rfl, rfl, rfl, fun _ => rfl⟩

theorem toggle_flatten_rel (nid : Nat) :
    ∀ f, List.Forall₂ (unchangedBesides nid)
      (flattenNodes f) (flattenNodes (toggleNode nid f)) := by
  refine forest_induction _ (by simp [toggleNode, flattenNodes]) ?_
  intro i l lvl e cs rest ihcs ihrest
  by_cases hi : i = nid
  · simp only [toggleNode, if_pos hi, flattenNodes]
    refine List.Forall₂.cons ⟨rfl, rfl, rfl, rfl, fun hne => absurd hi hne⟩ ?_
    exact List.rel_append
      (List.forall₂_same.2 fun x _ => unchangedBesides_rfl nid x) ihrest
  · by_cases hc : cs.length > 0
    · simp only [toggleNode, if_neg hi, if_pos hc, flattenNodes]
      refine List.Forall₂.cons
        ⟨rfl, rfl, rfl, (toggleNode_map_id nid cs).symm, fun _ => rfl⟩ ?_
      exact List.rel_append ihcs ihrest
    · simp only [toggleNode, if_neg hi, if_neg hc, flattenNodes]
      refine List.Forall₂.cons (unchangedBesides_rfl nid _) ?_
      exact List.rel_append
        (List.forall₂_same.2 fun x _ => unchangedBesides_rfl nid x) ihrest

theorem toggleNode_involutive (nid : Nat) :
    ∀ f, toggleNode nid (toggleNode nid f) = f := by
  refine forest_induction _ (by simp [toggleNode]) ?_
  intro i l lvl e cs rest ihcs ihrest
  by_cases hi : i = nid
  · simp only [toggleNode, if_pos hi, ihrest, List.cons.injEq, and_true]
    simp
  · by_cases hc : cs.length > 0
    · have hc2 : (toggleNode nid cs).length > 0 := by
        rw [toggleNode_length]
        exact hc
      simp only [toggleNode, if_neg hi, if_pos hc, if_pos hc2, ihcs, ihrest]
    · simp only [toggleNode, if_neg hi, if_neg hc, ihrest]

/-- C7: toggling the same id twice restores the forest exactly, and each of
the two applications changes nothing besides the `isExpanded` flag of the
nodes carrying the toggled id: position by position in pre-order, ids,
labels, levels and children id-order are preserved, and every node whose id
differs from the toggled one keeps its expansion flag. -/
theorem toggleExpand_twice (f : List MindMapNode) (nid : Nat)
    (h : nid ∈ (flattenNodes f).map MindMapNode.id) :
    handleToggleExpand nid (handleToggleExpand nid f) = f ∧
      List.Forall₂ (unchangedBesides nid)
        (flattenNodes f) (flattenNodes (handleToggleExpand nid f)) ∧
      List.Forall₂ (unchangedBesides nid)
        (flattenNodes (handleToggleExpand nid f))
        (flattenNodes (handleToggleExpand nid (handleToggleExpand nid f))) :=
  ⟨toggleNode_involutive nid f, toggle_flatten_rel nid f,
    toggle_flatten_rel nid (toggleNode nid f)⟩

/-- Witness for `toggleExpand_twice` on a two-node forest, toggling id 2. -/
theorem toggleExpand_twice_witness :
    handleToggleExpand 2
        (handleToggleExpand 2
          [MindMapNode.mk 1 [] 0 true [MindMapNode.mk 2 [] 1 true []]])
      = [MindMapNode.mk 1 [] 0 true [MindMapNode.mk 2 [] 1 true []]] :=
  (toggleExpand_twice
    [MindMapNode.mk 1 [] 0 true [MindMapNode.mk 2 [] 1 true []]] 2
    (by simp [flattenNodes])).1

/-! Search: C9 -/

theorem strIncludes_iff (hay needle : List Char) :
    strIncludes hay needle = true ↔ needle <:+: hay := by
  unfold strIncludes
  rw [List.any_eq_true]
  constructor
  · rintro ⟨t, ht, hp⟩
    exact List.infix_iff_prefix_suffix.2
      ⟨t, List.isPrefixOf_iff_prefix.1 hp, (List.mem_tails _ _).1 ht⟩
  · intro h
    obtain ⟨t, hpre, hsuf⟩ := List.infix_iff_prefix_suffix.1 h
    exact ⟨t, (List.mem_tails _ _).2 hsuf, List.isPrefixOf_iff_prefix.2 hpre⟩

/-- C9: on a query whose trim is empty `searchNodes` returns the empty list;
otherwise it returns, in pre-order (a sublist of `flattenNodes`, which
ignores `isExpanded`, so collapsed subtrees are searched too), exactly the
nodes whose lower-cased label contains the lower-cased query as a
substring. -/
theorem searchNodes_spec (f : List MindMapNode) (q : List Char) :
    ((jsTrim q).isEmpty = true → searchNodes f q = []) ∧
    ((jsTrim q).isEmpty = false →
      (searchNodes f q).Sublist (flattenNodes f) ∧
      ∀ n, n ∈ searchNodes f q ↔
        n ∈ flattenNodes f ∧ toLowerStr q <:+: toLowerStr n.label) := by
  constructor
  · intro h
    simp [searchNodes, h]
  · intro h
    have hcond : ¬((jsTrim q).isEmpty = true) := by simp [h]
    constructor
    · unfold searchNodes
      rw [if_neg hcond]
      exact List.filter_sublist _
    · intro n
      unfold searchNodes
      rw [if_neg hcond, List.mem_filter, strIncludes_iff]

/-- Witness for `searchNodes_spec`: the blank query returns nothing, and a
non-blank query's result is a pre-order sublist. -/
theorem searchNodes_spec_witness :
    searchNodes [MindMapNode.mk 1 (("Alpha" : String).toList) 0 true []]
        [' '] = [] ∧
      (searchNodes [MindMapNode.mk 1 (("Alpha" : String).toList) 0 true []]
        (("ph" : String).toList)).Sublist
        (flattenNodes [MindMapNode.mk 1 (("Alpha" : String).toList) 0 true []]) :=
  ⟨(searchNodes_spec [MindMapNode.mk 1 (("Alpha" : String).toList) 0 true []]
      [' ']).1 (by decide),
    ((searchNodes_spec [MindMapNode.mk 1 (("Alpha" : String).toList) 0 true []]
      (("ph" : String).toList)).2 (by decide)).1⟩

/-! The round trip: C2 -/

theorem flattenNodes_append : ∀ a b : List MindMapNode,
    flattenNodes (a ++ b) = flattenNodes a ++ flattenNodes b := by
  intro a
  induction a using forest_induction with
  | h0 => intro b; simp [flattenNodes]
  | h1 i l lvl e cs rest _ ihrest =>
      intro b
      simp only [List.cons_append, flattenNodes, ihrest, List.append_assoc]

/-- The pre-order label sequence of a forest. -/
def flatLabels (f : List MindMapNode) : List (List Char) :=
  (flattenNodes f).map MindMapNode.label

theorem flatLabels_append (a b : List MindMapNode) :
    flatLabels (a ++ b) = flatLabels a ++ flatLabels b := by
  unfold flatLabels
  rw [flattenNodes_append, List.map_append]

theorem flatLabels_mk (i : Nat) (l : List Char) (lvl : Nat) (e : Bool)
    (cs : List MindMapNode) :
    flatLabels [MindMapNode.mk i l lvl e cs] = l :: flatLabels cs := by
  unfold flatLabels
  simp [flattenNodes]

theorem flatLabels_addChild (p c : MindMapNode) :
    flatLabels [addChild p c] = flatLabels [p] ++ flatLabels [c] := by
  cases p with
  | mk i l lvl e cs =>
      simp only [addChild, flatLabels_mk, flatLabels_append, List.cons_append]

/-- The forest the source's mutation has actually produced at a mid-loop
state: the finalized roots followed by the collapsed open spine. -/
def virtualForest (roots stack : List MindMapNode) : List MindMapNode :=
  roots ++ match stack with
  | [] => []
  | h :: t => [collapseTop h t]

theorem collapseTop_cons (h p : MindMapNode) (t : List MindMapNode) :
    collapseTop h (p :: t) = collapseTop (addChild p h) t := rfl

theorem collapseTop_append (h : MindMapNode) (t r : List MindMapNode) :
    collapseTop h (t ++ r) = collapseTop (collapseTop h t) r := by
  unfold collapseTop
  rw [List.foldl_append]

/-- Popping re-associates the virtual forest without changing it. -/
theorem popAttach_virtual (lvl : Nat) (roots stack : List MindMapNode) :
    virtualForest (popAttach lvl roots stack).1 (popAttach lvl roots stack).2
      = virtualForest roots stack := by
  have hsplit := List.takeWhile_append_dropWhile
    (p := fun n => decide (lvl ≤ n.level)) (l := stack)
  unfold popAttach
  split
  · rfl
  · next h t heq1 heq2 =>
      rw [heq1, heq2, List.append_nil] at hsplit
      rw [← hsplit]
      simp [virtualForest]
  · next h t p r heq1 heq2 =>
      rw [heq1, heq2] at hsplit
      rw [← hsplit]
      show roots ++ [collapseTop (addChild p (collapseTop h t)) r]
          = roots ++ [collapseTop h (t ++ p :: r)]
      rw [collapseTop_append, collapseTop_cons]

theorem flatLabels_virtual_push (stack : List MindMapNode) :
    ∀ (roots : List MindMapNode) (n : MindMapNode),
      flatLabels (virtualForest roots (n :: stack))
        = flatLabels (virtualForest roots stack) ++ flatLabels [n] := by
  induction stack with
  | nil =>
      intro roots n
      simp [virtualForest, collapseTop, flatLabels_append]
  | cons h t ih =>
      intro roots n
      show flatLabels (roots ++ [collapseTop n (h :: t)]) = _
      rw [collapseTop_cons]
      have h1 := ih roots (addChild h n)
      have h2 := ih roots h
      simp only [virtualForest] at h1 h2 ⊢
      rw [h1, h2, flatLabels_addChild, List.append_assoc]

theorem buildStep_labels (s : BuildState) (line : ParsedLine) :
    flatLabels (virtualForest (buildStep s line).roots (buildStep s line).stack)
      = flatLabels (virtualForest s.roots s.stack) ++ [line.content] := by
  unfold buildStep
  rcases hpa : popAttach line.level s.roots s.stack with ⟨roots, stack⟩
  have hv := popAttach_virtual line.level s.roots s.stack
  rw [hpa] at hv
  simp only []
  rw [flatLabels_virtual_push, hv, flatLabels_mk]
  simp [flatLabels, flattenNodes]

theorem buildRun_labels (lines : List ParsedLine) :
    ∀ s : BuildState,
      flatLabels (virtualForest (lines.foldl buildStep s).roots
          (lines.foldl buildStep s).stack)
        = flatLabels (virtualForest s.roots s.stack)
            ++ lines.map ParsedLine.content := by
  induction lines with
  | nil => intro s; simp
  | cons a t ih =>
      intro s
      simp only [List.foldl_cons, List.map_cons]
      rw [ih (buildStep s a), buildStep_labels, List.append_assoc]
      rfl

theorem takeWhile_all {α : Type} {p : α → Bool} :
    ∀ {l : List α}, (∀ x ∈ l, p x = true) → l.takeWhile p = l := by
  intro l
  induction l with
  | nil => intro _; rfl
  | cons a t ih =>
      intro h
      rw [List.takeWhile_cons, if_pos (h a (List.mem_cons_self a t))]
      rw [ih fun x hx => h x (List.mem_cons_of_mem a hx)]

theorem dropWhile_all {α : Type} {p : α → Bool} :
    ∀ {l : List α}, (∀ x ∈ l, p x = true) → l.dropWhile p = [] := by
  intro l
  induction l with
  | nil => intro _; rfl
  | cons a t ih =>
      intro h
      rw [List.dropWhile_cons, if_pos (h a (List.mem_cons_self a t))]
      exact ih fun x hx => h x (List.mem_cons_of_mem a hx)

/-- Flushing the final stack with `popAttach 0` produces exactly the virtual
forest. -/
theorem popAttach_zero (roots stack : List MindMapNode) :
    (popAttach 0 roots stack).1 = virtualForest roots stack := by
  have htw : stack.takeWhile (fun n => decide (0 ≤ n.level)) = stack :=
    takeWhile_all fun x _ => by simp
  have hdw : stack.dropWhile (fun n => decide (0 ≤ n.level)) = [] :=
    dropWhile_all fun x _ => by simp
  unfold popAttach
  cases stack with
  | nil => simp [virtualForest]
  | cons h t =>
      rw [htw, hdw]
      simp [virtualForest]

/-- C2: the round trip.  Flattening the forest built from the classified
records (`flattenNodes` after `buildMindMapTree` after `parseTextToLines`,
i.e. `parseTextToMindMap`) visits nodes in pre-order, and the visited labels
are exactly the cleaned non-empty line contents of the text in original line
order, for any starting id counter. -/
theorem parse_flatten_roundTrip (ctr0 : Nat) (text : List Char) :
    (flattenNodes (parseTextToMindMap ctr0 text)).map MindMapNode.label
      = (parseTextToLines text).map ParsedLine.content := by
  unfold parseTextToMindMap buildMindMapTree
  by_cases hl : (parseTextToLines text).isEmpty
  · rw [if_pos hl]
    rw [List.isEmpty_iff] at hl
    rw [hl]
    simp [flattenNodes]
  · rw [if_neg hl]
    show flatLabels _ = _
    rw [popAttach_zero]
    have := buildRun_labels (parseTextToLines text) ⟨[], [], [], ctr0⟩
    unfold buildRun
    rw [this]
    simp [virtualForest, flatLabels, flattenNodes]

/-! Structural invariants of the builder: C3 and C10

`forestRel Q f` states that `Q parent child` holds at every edge of the
forest `f`.  Instantiated with a level comparison it gives the C3 invariant;
instantiated with a parent-map lookup it gives the C10 consistency. -/

def forestRel (Q : MindMapNode → MindMapNode → Prop)
    (f : List MindMapNode) : Prop :=
  ∀ n ∈ flattenNodes f, ∀ c ∈ n.children, Q n c

theorem addChild_id (p c : MindMapNode) : (addChild p c).id = p.id := by
  cases p
  rfl

theorem addChild_level (p c : MindMapNode) :
    (addChild p c).level = p.level := by
  cases p
  rfl

theorem addChild_children (p c : MindMapNode) :
    (addChild p c).children = p.children ++ [c] := by
  cases p
  rfl

theorem flattenNodes_cons (n : MindMapNode) (rest : List MindMapNode) :
    flattenNodes (n :: rest)
      = n :: (flattenNodes n.children ++ flattenNodes rest) := by
  cases n
  simp [flattenNodes]

theorem forestRel_nil (Q : MindMapNode → MindMapNode → Prop) :
    forestRel Q [] := by
  intro n hn
  simp [flattenNodes] at hn

theorem forestRel_append {Q : MindMapNode → MindMapNode → Prop}
    {a b : List MindMapNode} :
    forestRel Q (a ++ b) ↔ forestRel Q a ∧ forestRel Q b := by
  unfold forestRel
  rw [flattenNodes_append]
  constructor
  · intro h
    exact ⟨fun n hn => h n (List.mem_append_left _ hn),
      fun n hn => h n (List.mem_append_right _ hn)⟩
  · rintro ⟨h1, h2⟩ n hn
    rcases List.mem_append.1 hn with hn | hn
    exacts [h1 n hn, h2 n hn]

theorem forestRel_cons {Q : MindMapNode → MindMapNode → Prop}
    {n : MindMapNode} {rest : List MindMapNode} :
    forestRel Q (n :: rest) ↔
      (∀ c ∈ n.children, Q n c) ∧ forestRel Q n.children ∧ forestRel Q rest := by
  unfold forestRel
  rw [flattenNodes_cons]
  constructor
  · intro h
    exact ⟨h n (List.mem_cons_self _ _),
      fun m hm c hc => h m (List.mem_cons_of_mem _ (List.mem_append_left _ hm)) c hc,
      fun m hm c hc => h m (List.mem_cons_of_mem _ (List.mem_append_right _ hm)) c hc⟩
  · rintro ⟨h1, h2, h3⟩ m hm
    rcases List.mem_cons.1 hm with rfl | hm
    · exact h1
    · rcases List.mem_append.1 hm with hm | hm
      exacts [h2 m hm, h3 m hm]

/-- The bottom entry of a non-empty stack segment `h :: t`. -/
def bottomOf (h : MindMapNode) (t : List MindMapNode) : MindMapNode :=
  match t with
  | [] => h
  | a :: l => bottomOf a l

theorem getLast?_cons_bottom :
    ∀ (t : List MindMapNode) (h : MindMapNode),
      (h :: t).getLast? = some (bottomOf h t) := by
  intro t
  induction t with
  | nil => intro h; rfl
  | cons a l ih =>
      intro h
      rw [List.getLast?_cons_cons, ih a]
      rfl

/-- Collapsing keeps the id and level of the segment's bottom entry. -/
theorem collapseTop_id_level :
    ∀ (t : List MindMapNode) (h : MindMapNode),
      (collapseTop h t).id = (bottomOf h t).id ∧
        (collapseTop h t).level = (bottomOf h t).level := by
  intro t
  induction t with
  | nil => intro h; exact ⟨rfl, rfl⟩
  | cons p t' ih =>
      intro h
      rw [collapseTop_cons]
      rcases ih (addChild p h) with ⟨h1, h2⟩
      refine ⟨h1.trans ?_, h2.trans ?_⟩ <;>
        cases t' with
        | nil => simp [bottomOf, addChild_id, addChild_level]
        | cons a l => rfl

/-- Collapsing a segment whose edges all satisfy `Q` and whose spine is
`Q`-chained (each entry `Q`-relates, as parent, to the entry above it) gives
a single tree all of whose edges satisfy `Q`. -/
theorem collapseTop_rel (Q : MindMapNode → MindMapNode → Prop)
    (hP : ∀ p p' c, p.id = p'.id → p.level = p'.level → (Q p c ↔ Q p' c))
    (hC : ∀ x c c', c.id = c'.id → c.level = c'.level → (Q x c ↔ Q x c')) :
    ∀ (t : List MindMapNode) (h : MindMapNode),
      forestRel Q (h :: t) →
      List.Chain' (fun a b => Q b a) (h :: t) →
      forestRel Q [collapseTop h t] := by
  intro t
  induction t with
  | nil =>
      intro h hf _
      exact hf
  | cons p t' ih =>
      intro h hf hc
      rw [collapseTop_cons]
      obtain ⟨h1, h2, h3⟩ := forestRel_cons.1 hf
      obtain ⟨h4, h5, h6⟩ := forestRel_cons.1 h3
      rw [List.chain'_cons] at hc
      obtain ⟨hQph, hc'⟩ := hc
      refine ih (addChild p h) (forestRel_cons.2 ⟨?_, ?_, h6⟩) ?_
      · intro c hcmem
        rw [addChild_children] at hcmem
        rw [hP _ p c (addChild_id p h) (addChild_level p h)]
        rcases List.mem_append.1 hcmem with hcm | hcm
        · exact h4 c hcm
        · rw [List.mem_singleton] at hcm
          subst hcm
          exact hQph
      · rw [addChild_children]
        exact forestRel_append.2 ⟨h5, forestRel_cons.2 ⟨h1, h2, forestRel_nil Q⟩⟩
      · cases t' with
        | nil => simp
        | cons a l =>
            rw [List.chain'_cons] at hc' ⊢
            refine ⟨?_, hc'.2⟩
            rw [hC a _ p (addChild_id p h) (addChild_level p h)]
            exact hc'.1

/-- The pop loop preserves the edge invariant and the spine chain. -/
theorem popAttach_rel (Q : MindMapNode → MindMapNode → Prop)
    (hP : ∀ p p' c, p.id = p'.id → p.level = p'.level → (Q p c ↔ Q p' c))
    (hC : ∀ x c c', c.id = c'.id → c.level = c'.level → (Q x c ↔ Q x c'))
    (lvl : Nat) (roots stack : List MindMapNode)
    (hr : forestRel Q roots) (hs : forestRel Q stack)
    (hch : List.Chain' (fun a b => Q b a) stack) :
    forestRel Q (popAttach lvl roots stack).1 ∧
      forestRel Q (popAttach lvl roots stack).2 ∧
      List.Chain' (fun a b => Q b a) (popAttach lvl roots stack).2 := by
  have hsplit := List.takeWhile_append_dropWhile
    (p := fun n => decide (lvl ≤ n.level)) (l := stack)
  unfold popAttach
  split
  · exact ⟨hr, hs, hch⟩
  · next h t heq1 heq2 =>
      rw [heq1, heq2, List.append_nil] at hsplit
      subst hsplit
      refine ⟨forestRel_append.2 ⟨hr, ?_⟩, forestRel_nil Q, List.chain'_nil⟩
      exact collapseTop_rel Q hP hC t h hs hch
  · next h t p r heq1 heq2 =>
      rw [heq1, heq2] at hsplit
      subst hsplit
      obtain ⟨hs1, hs2⟩ := forestRel_append.1 hs
      rw [List.chain'_append] at hch
      obtain ⟨hc1, hc2, hmid⟩ := hch
      have hbot : Q p (bottomOf h t) := by
        have := hmid (bottomOf h t) (by rw [getLast?_cons_bottom]; rfl) p rfl
        exact this
      obtain ⟨hidC, hlvlC⟩ := collapseTop_id_level t h
      have hQpC : Q p (collapseTop h t) :=
        (hC p _ _ hidC hlvlC).2 hbot
      have hcoll := collapseTop_rel Q hP hC t h hs1 hc1
      obtain ⟨h4, h5, h6⟩ := forestRel_cons.1 hs2
      refine ⟨hr, forestRel_cons.2 ⟨?_, ?_, h6⟩, ?_⟩
      · intro c hcmem
        rw [addChild_children] at hcmem
        rw [hP _ p c (addChild_id _ _) (addChild_level _ _)]
        rcases List.mem_append.1 hcmem with hcm | hcm
        · exact h4 c hcm
        · rw [List.mem_singleton] at hcm
          subst hcm
          exact hQpC
      · rw [addChild_children]
        exact forestRel_append.2 ⟨h5, hcoll⟩
      · cases r with
        | nil => simp
        | cons a l =>
            rw [List.chain'_cons] at hc2 ⊢
            refine ⟨?_, hc2.2⟩
            rw [hC a _ p (addChild_id _ _) (addChild_level _ _)]
            exact hc2.1

theorem dropWhile_head_false {α : Type} {p : α → Bool} :
    ∀ (l : List α) {a : α} {t : List α}, l.dropWhile p = a :: t → p a = false := by
  intro l
  induction l with
  | nil => intro a t h; cases h
  | cons x xs ih =>
      intro a t h
      rw [List.dropWhile_cons] at h
      by_cases hp : p x = true
      · rw [if_pos hp] at h
        exact ih h
      · rw [if_neg hp] at h
        cases h
        simpa using hp

/-- After popping for a new line at `lvl`, the remaining stack top (if any)
has level strictly below `lvl`. -/
theorem popAttach_head_level (lvl : Nat) (roots stack : List MindMapNode) :
    ∀ x ∈ (popAttach lvl roots stack).2.head?, x.level < lvl := by
  unfold popAttach
  split
  · next heq1 =>
      intro x hx
      cases stack with
      | nil => simp at hx
      | cons a t =>
          rw [List.head?_cons, Option.mem_some_iff] at hx
          subst hx
          rw [List.takeWhile_cons] at heq1
          by_cases hp : decide (lvl ≤ a.level) = true
          · rw [if_pos hp] at heq1
            cases heq1
          · have hnot : ¬(lvl ≤ a.level) := by simpa using hp
            omega
  · intro x hx
    simp at hx
  · next h t p r heq1 heq2 =>
      intro x hx
      rw [List.head?_cons, Option.mem_some_iff] at hx
      subst hx
      rw [addChild_level]
      have hfalse := dropWhile_head_false stack heq2
      simp only [decide_eq_false_iff_not] at hfalse
      omega

/-- The C3 edge relation: a child's level is strictly above its parent's. -/
def levelLt (n c : MindMapNode) : Prop := n.level < c.level

theorem levelLt_transport_p (p p' c : MindMapNode) (h1 : p.id = p'.id)
    (h2 : p.level = p'.level) : levelLt p c ↔ levelLt p' c := by
  unfold levelLt
  rw [h2]

theorem levelLt_transport_c (x c c' : MindMapNode) (h1 : c.id = c'.id)
    (h2 : c.level = c'.level) : levelLt x c ↔ levelLt x c' := by
  unfold levelLt
  rw [h2]

/-- The C3 loop invariant. -/
def InvLevels (s : BuildState) : Prop :=
  forestRel levelLt s.roots ∧ forestRel levelLt s.stack ∧
    List.Chain' (fun a b => levelLt b a) s.stack

theorem buildStep_levels {s : BuildState} (line : ParsedLine)
    (h : InvLevels s) : InvLevels (buildStep s line) := by
  obtain ⟨hr, hs, hch⟩ := h
  have hpa := popAttach_rel levelLt levelLt_transport_p levelLt_transport_c
    line.level s.roots s.stack hr hs hch
  have hhead := popAttach_head_level line.level s.roots s.stack
  unfold buildStep
  rcases hq : popAttach line.level s.roots s.stack with ⟨roots, stack⟩
  rw [hq] at hpa hhead
  obtain ⟨hr', hs', hch'⟩ := hpa
  refine ⟨hr', forestRel_cons.2 ⟨?_, ?_, hs'⟩, ?_⟩
  · intro c hc
    simp at hc
  · intro n hn
    simp [flattenNodes] at hn
  · cases stack with
    | nil => simp
    | cons a l =>
        rw [List.chain'_cons]
        exact ⟨hhead a rfl, hch'⟩

theorem buildRun_levels (lines : List ParsedLine) :
    ∀ s : BuildState, InvLevels s → InvLevels (lines.foldl buildStep s) := by
  induction lines with
  | nil => intro s h; exact h
  | cons a t ih =>
      intro s h
      exact ih (buildStep s a) (buildStep_levels a h)

/-- C3: in every forest that `buildMindMapTree` produces, from any record
sequence and any id counter, every child node's level is strictly greater
than its parent's; and (second conjunct) it is not in general exactly the
parent's level plus one — the depth-skip build is a witness. -/
theorem build_child_level_gt (ctr0 : Nat) (lines : List ParsedLine) :
    (∀ n ∈ flattenNodes (buildMindMapTree ctr0 lines),
      ∀ c ∈ n.children, n.level < c.level) ∧
    (∃ n c : MindMapNode,
      n ∈ flattenNodes (buildMindMapTree 0 [⟨[' '], 0, 1⟩, ⟨[' '], 3, 2⟩]) ∧
      c ∈ n.children ∧ n.level < c.level ∧ c.level ≠ n.level + 1) := by
  constructor
  · unfold buildMindMapTree
    by_cases hl : lines.isEmpty
    · rw [if_pos hl]
      exact forestRel_nil levelLt
    · rw [if_neg hl]
      have hinv : InvLevels (buildRun ctr0 lines) := by
        unfold buildRun
        exact buildRun_levels lines _
          ⟨forestRel_nil levelLt, forestRel_nil levelLt, List.chain'_nil⟩
      obtain ⟨hr, hs, hch⟩ := hinv
      exact (popAttach_rel levelLt levelLt_transport_p levelLt_transport_c
        0 _ _ hr hs hch).1
  · refine ⟨MindMapNode.mk 1 [' '] 0 true [MindMapNode.mk 2 [' '] 3 true []],
      MindMapNode.mk 2 [' '] 3 true [], ?_, ?_, ?_, ?_⟩
    · have hb : buildMindMapTree 0 [⟨[' '], 0, 1⟩, ⟨[' '], 3, 2⟩]
          = [MindMapNode.mk 1 [' '] 0 true [MindMapNode.mk 2 [' '] 3 true []]] :=
        rfl
      rw [hb, flattenNodes_cons]
      exact List.mem_cons_self _ _
    · simp
    · simp [MindMapNode.level]
    · simp [MindMapNode.level]

/-- Witness for `build_child_level_gt` on the depth-skip build: the root at
level 0 has its child at level 3 strictly above it. -/
theorem build_child_level_gt_witness :
    (MindMapNode.mk 1 [' '] 0 true [MindMapNode.mk 2 [' '] 3 true []]).level
      < (MindMapNode.mk 2 [' '] 3 true []).level :=
  (build_child_level_gt 0 [⟨[' '], 0, 1⟩, ⟨[' '], 3, 2⟩]).1
    (MindMapNode.mk 1 [' '] 0 true [MindMapNode.mk 2 [' '] 3 true []])
    (by
      rw [show buildMindMapTree 0 [⟨[' '], 0, 1⟩, ⟨[' '], 3, 2⟩]
          = [MindMapNode.mk 1 [' '] 0 true [MindMapNode.mk 2 [' '] 3 true []]]
          from rfl,
        flattenNodes_cons]
      exact List.mem_cons_self _ _)
    (MindMapNode.mk 2 [' '] 3 true []) (by simp)

/-! Parent-map consistency: C10 -/

theorem flattenNodes_nil : flattenNodes [] = [] := by
  simp [flattenNodes]

/-- The C10 edge relation w.r.t. an assignment trace `pm`: the child's
recorded parent id is the parent node's id. -/
def parentEdge (pm : List (Nat × Nat)) (n c : MindMapNode) : Prop :=
  List.lookup c.id pm = some n.id

theorem parentEdge_transport_p (pm : List (Nat × Nat)) (p p' c : MindMapNode)
    (h1 : p.id = p'.id) (h2 : p.level = p'.level) :
    parentEdge pm p c ↔ parentEdge pm p' c := by
  unfold parentEdge
  rw [h1]

theorem parentEdge_transport_c (pm : List (Nat × Nat)) (x c c' : MindMapNode)
    (h1 : c.id = c'.id) (h2 : c.level = c'.level) :
    parentEdge pm x c ↔ parentEdge pm x c' := by
  unfold parentEdge
  rw [h1]

theorem lookup_cons_self (i v : Nat) (pm : List (Nat × Nat)) :
    List.lookup i ((i, v) :: pm) = some v := by
  simp [List.lookup]

theorem lookup_cons_ne (k i v : Nat) (pm : List (Nat × Nat)) (h : k ≠ i) :
    List.lookup k ((i, v) :: pm) = List.lookup k pm := by
  have hb : (k == i) = false := by simpa using h
  simp [List.lookup, hb]

theorem lookup_none_of_gt (pm : List (Nat × Nat)) (i : Nat)
    (h : ∀ kv ∈ pm, kv.1 < i) : List.lookup i pm = none := by
  induction pm with
  | nil => rfl
  | cons kv t ih =>
      rcases kv with ⟨k, v⟩
      have hk : k < i := h (k, v) (List.mem_cons_self _ _)
      rw [lookup_cons_ne i k v t (by omega)]
      exact ih fun kv hkv => h kv (List.mem_cons_of_mem _ hkv)

theorem mem_flattenNodes_self :
    ∀ {f : List MindMapNode} {x : MindMapNode}, x ∈ f → x ∈ flattenNodes f := by
  intro f
  induction f with
  | nil => intro x h; cases h
  | cons n rest ih =>
      intro x h
      rw [flattenNodes_cons]
      rcases List.mem_cons.1 h with rfl | h
      · exact List.mem_cons_self _ _
      · exact List.mem_cons_of_mem _ (List.mem_append_right _ (ih h))

theorem children_mem_flattenNodes :
    ∀ {f : List MindMapNode} {n c : MindMapNode},
      n ∈ flattenNodes f → c ∈ n.children → c ∈ flattenNodes f := by
  intro f
  induction f using forest_induction with
  | h0 =>
      intro n c hn _
      rw [flattenNodes_nil] at hn
      cases hn
  | h1 i l lvl e cs rest ihcs ihrest =>
      intro n c hn hc
      rw [flattenNodes_cons] at hn ⊢
      rcases List.mem_cons.1 hn with rfl | hn
      · simp only [MindMapNode.children_mk] at hc
        exact List.mem_cons_of_mem _
          (List.mem_append_left _ (mem_flattenNodes_self hc))
      · rcases List.mem_append.1 hn with hn | hn
        · exact List.mem_cons_of_mem _ (List.mem_append_left _ (ihcs hn hc))
        · exact List.mem_cons_of_mem _ (List.mem_append_right _ (ihrest hn hc))

/-- Every node of a collapsed segment carries the id of a node of the
segment. -/
theorem collapseTop_ids :
    ∀ (t : List MindMapNode) (h x : MindMapNode),
      x ∈ flattenNodes [collapseTop h t] →
      ∃ m ∈ flattenNodes (h :: t), x.id = m.id := by
  intro t
  induction t with
  | nil =>
      intro h x hx
      exact ⟨x, hx, rfl⟩
  | cons p t' ih =>
      intro h x hx
      rw [collapseTop_cons] at hx
      obtain ⟨m, hm, hid⟩ := ih (addChild p h) x hx
      rw [flattenNodes_cons] at hm
      have hgoal : ∀ y ∈ flattenNodes (h :: p :: t'), x.id = y.id →
          ∃ m ∈ flattenNodes (h :: p :: t'), x.id = m.id :=
        fun y hy hxy => ⟨y, hy, hxy⟩
      rcases List.mem_cons.1 hm with rfl | hm
      · refine hgoal p ?_ (by rw [hid, addChild_id])
        rw [flattenNodes_cons]
        refine List.mem_cons_of_mem _ (List.mem_append_right _ ?_)
        rw [flattenNodes_cons]
        exact List.mem_cons_self _ _
      · rw [addChild_children, flattenNodes_append] at hm
        rcases List.mem_append.1 hm with hm | hm
        · rcases List.mem_append.1 hm with hm | hm
          · refine hgoal m ?_ hid
            rw [flattenNodes_cons]
            refine List.mem_cons_of_mem _ (List.mem_append_right _ ?_)
            rw [flattenNodes_cons]
            exact List.mem_cons_of_mem _ (List.mem_append_left _ hm)
          · rw [flattenNodes_cons, flattenNodes_nil, List.append_nil] at hm
            refine hgoal m ?_ hid
            rw [flattenNodes_cons]
            rcases List.mem_cons.1 hm with rfl | hm
            · exact List.mem_cons_self _ _
            · exact List.mem_cons_of_mem _ (List.mem_append_left _ hm)
        · refine hgoal m ?_ hid
          rw [flattenNodes_cons]
          refine List.mem_cons_of_mem _ (List.mem_append_right _ ?_)
          rw [flattenNodes_cons]
          exact List.mem_cons_of_mem _ (List.mem_append_right _ hm)

/-- All node ids of a forest are bounded by `k`. -/
def idBound (k : Nat) (f : List MindMapNode) : Prop :=
  ∀ n ∈ flattenNodes f, n.id ≤ k

theorem idBound_append {k : Nat} {a b : List MindMapNode} :
    idBound k (a ++ b) ↔ idBound k a ∧ idBound k b := by
  unfold idBound
  rw [flattenNodes_append]
  constructor
  · intro h
    exact ⟨fun n hn => h n (List.mem_append_left _ hn),
      fun n hn => h n (List.mem_append_right _ hn)⟩
  · rintro ⟨h1, h2⟩ n hn
    rcases List.mem_append.1 hn with hn | hn
    exacts [h1 n hn, h2 n hn]

theorem idBound_cons {k : Nat} {n : MindMapNode} {rest : List MindMapNode} :
    idBound k (n :: rest) ↔
      n.id ≤ k ∧ idBound k n.children ∧ idBound k rest := by
  unfold idBound
  rw [flattenNodes_cons]
  constructor
  · intro h
    exact ⟨h n (List.mem_cons_self _ _),
      fun m hm => h m (List.mem_cons_of_mem _ (List.mem_append_left _ hm)),
      fun m hm => h m (List.mem_cons_of_mem _ (List.mem_append_right _ hm))⟩
  · rintro ⟨h1, h2, h3⟩ m hm
    rcases List.mem_cons.1 hm with rfl | hm
    · exact h1
    · rcases List.mem_append.1 hm with hm | hm
      exacts [h2 m hm, h3 m hm]

theorem popAttach_idBound (lvl k : Nat) (roots stack : List MindMapNode)
    (hr : idBound k roots) (hs : idBound k stack) :
    idBound k (popAttach lvl roots stack).1 ∧
      idBound k (popAttach lvl roots stack).2 := by
  have hsplit := List.takeWhile_append_dropWhile
    (p := fun n => decide (lvl ≤ n.level)) (l := stack)
  unfold popAttach
  split
  · exact ⟨hr, hs⟩
  · next h t heq1 heq2 =>
      rw [heq1, heq2, List.append_nil] at hsplit
      subst hsplit
      refine ⟨idBound_append.2 ⟨hr, ?_⟩, fun n hn => by
        rw [flattenNodes_nil] at hn; cases hn⟩
      intro n hn
      obtain ⟨m, hm, hid⟩ := collapseTop_ids t h n hn
      rw [hid]
      exact hs m hm
  · next h t p r heq1 heq2 =>
      rw [heq1, heq2] at hsplit
      subst hsplit
      rw [idBound_append] at hs
      obtain ⟨hs1, hs2⟩ := hs
      rw [idBound_cons] at hs2
      obtain ⟨hp, hpc, hrr⟩ := hs2
      refine ⟨hr, idBound_cons.2 ⟨?_, ?_, hrr⟩⟩
      · rw [addChild_id]
        exact hp
      · rw [addChild_children]
        refine idBound_append.2 ⟨hpc, ?_⟩
        intro n hn
        obtain ⟨m, hm, hid⟩ := collapseTop_ids t h n hn
        rw [hid]
        exact hs1 m hm

theorem bottomOf_append_cons (a : MindMapNode) (l : List MindMapNode) :
    ∀ (t : List MindMapNode) (h : MindMapNode),
      bottomOf h (t ++ a :: l) = bottomOf a l := by
  intro t
  induction t with
  | nil => intro h; rfl
  | cons b t' ih => intro h; exact ih b

theorem bottomOf_mem :
    ∀ (t : List MindMapNode) (h : MindMapNode), bottomOf h t ∈ h :: t := by
  intro t
  induction t with
  | nil => intro h; exact List.mem_cons_self _ _
  | cons a l ih =>
      intro h
      exact List.mem_cons_of_mem _ (ih a)

/-- The pop loop preserves the two "no recorded parent" facts: finalized
roots have no entry in the trace, and neither has the bottom of the stack. -/
theorem popAttach_bottoms (lvl : Nat) (roots stack : List MindMapNode)
    (pm : List (Nat × Nat))
    (hroots : ∀ r ∈ roots, List.lookup r.id pm = none)
    (hbot : ∀ b, stack.getLast? = some b → List.lookup b.id pm = none) :
    (∀ r ∈ (popAttach lvl roots stack).1, List.lookup r.id pm = none) ∧
      (∀ b, (popAttach lvl roots stack).2.getLast? = some b →
        List.lookup b.id pm = none) := by
  unfold popAttach
  have hsplit := List.takeWhile_append_dropWhile
    (p := fun n => decide (lvl ≤ n.level)) (l := stack)
  split
  · exact ⟨hroots, hbot⟩
  · next h t heq1 heq2 =>
      rw [heq1, heq2, List.append_nil] at hsplit
      subst hsplit
      constructor
      · intro x hx
        rcases List.mem_append.1 hx with hx | hx
        · exact hroots x hx
        · rw [List.mem_singleton] at hx
          subst hx
          rw [(collapseTop_id_level t h).1]
          exact hbot _ (getLast?_cons_bottom t h)
      · intro b hb
        cases hb
  · next h t p r heq1 heq2 =>
      rw [heq1, heq2] at hsplit
      subst hsplit
      refine ⟨hroots, ?_⟩
      intro b hb
      rw [getLast?_cons_bottom, Option.some_inj] at hb
      subst hb
      cases r with
      | nil =>
          show List.lookup (addChild p (collapseTop h t)).id pm = none
          rw [addChild_id]
          refine hbot p ?_
          rw [List.cons_append, getLast?_cons_bottom,
            bottomOf_append_cons p []]
          rfl
      | cons a l =>
          show List.lookup (bottomOf a l).id pm = none
          refine hbot (bottomOf a l) ?_
          rw [List.cons_append, getLast?_cons_bottom,
            bottomOf_append_cons p (a :: l)]
          rfl

theorem idBound_mono {k k' : Nat} {f : List MindMapNode}
    (h : idBound k f) (hk : k ≤ k') : idBound k' f :=
  fun n hn => le_trans (h n hn) hk

theorem forestRel_parentEdge_extend {pm : List (Nat × Nat)} {i v k : Nat}
    {f : List MindMapNode} (hb : idBound k f) (hik : k < i)
    (h : forestRel (parentEdge pm) f) :
    forestRel (parentEdge ((i, v) :: pm)) f := by
  intro n hn c hc
  have hcid : c.id ≤ k := hb c (children_mem_flattenNodes hn hc)
  unfold parentEdge
  rw [lookup_cons_ne c.id i v pm (by omega)]
  exact h n hn c hc

theorem chain_parentEdge_extend {pm : List (Nat × Nat)} {i v k : Nat} :
    ∀ {st : List MindMapNode}, idBound k st → k < i →
      List.Chain' (fun a b => parentEdge pm b a) st →
      List.Chain' (fun a b => parentEdge ((i, v) :: pm) b a) st := by
  intro st
  induction st with
  | nil =>
      intro _ _ _
      exact List.chain'_nil
  | cons a t ih =>
      intro hb hik hch
      cases t with
      | nil => simp
      | cons b l =>
          rw [List.chain'_cons] at hch ⊢
          obtain ⟨h1, h2⟩ := hch
          rw [idBound_cons] at hb
          obtain ⟨ha, _, hb2⟩ := hb
          refine ⟨?_, ih hb2 hik h2⟩
          unfold parentEdge at h1 ⊢
          rw [lookup_cons_ne a.id i v pm (by omega)]
          exact h1

/-- The C10 loop invariant: the recorded assignments are consistent with all
edges built so far (in finalized roots and in the open stack), consecutive
stack entries are recorded child-to-parent, finalized roots and the stack
bottom have no recorded parent, and all ids seen so far are bounded by the
counter. -/
def InvParent (s : BuildState) : Prop :=
  forestRel (parentEdge s.pmap) s.roots ∧
  forestRel (parentEdge s.pmap) s.stack ∧
  List.Chain' (fun a b => parentEdge s.pmap b a) s.stack ∧
  (∀ r ∈ s.roots, List.lookup r.id s.pmap = none) ∧
  (∀ b, s.stack.getLast? = some b → List.lookup b.id s.pmap = none) ∧
  idBound s.ctr s.roots ∧ idBound s.ctr s.stack ∧
  (∀ kv ∈ s.pmap, kv.1 ≤ s.ctr)

theorem buildStep_parent {s : BuildState} (line : ParsedLine)
    (h : InvParent s) : InvParent (buildStep s line) := by
  obtain ⟨her, hes, hch, hrn, hbn, hir, his, hkeys⟩ := h
  have hrel := popAttach_rel (parentEdge s.pmap)
    (parentEdge_transport_p s.pmap) (parentEdge_transport_c s.pmap)
    line.level s.roots s.stack her hes hch
  have hbots := popAttach_bottoms line.level s.roots s.stack s.pmap hrn hbn
  have hbnd := popAttach_idBound line.level s.ctr s.roots s.stack hir his
  unfold buildStep
  rcases hq : popAttach line.level s.roots s.stack with ⟨roots, stack⟩
  rw [hq] at hrel hbots hbnd
  obtain ⟨hr', hs', hch'⟩ := hrel
  obtain ⟨hrn', hbn'⟩ := hbots
  obtain ⟨hbr', hbs'⟩ := hbnd
  cases stack with
  | nil =>
      show InvParent ⟨roots,
        [MindMapNode.mk (s.ctr + 1) line.content line.level true []],
        s.pmap, s.ctr + 1⟩
      unfold InvParent
      dsimp only []
      refine ⟨hr', ?_, ?_, hrn', ?_, idBound_mono hbr' (by omega), ?_, ?_⟩
      · refine forestRel_cons.2 ⟨?_, ?_, forestRel_nil _⟩
        · intro c hc
          simp at hc
        · intro n hn c _
          simp [flattenNodes] at hn
      · simp
      · intro b hb
        rw [List.getLast?_singleton, Option.some_inj] at hb
        subst hb
        exact lookup_none_of_gt s.pmap _
          fun kv hkv => by have := hkeys kv hkv; simp; omega
      · refine idBound_cons.2 ⟨by simp, ?_, ?_⟩
        · intro n hn
          simp [flattenNodes] at hn
        · intro n hn
          rw [flattenNodes_nil] at hn
          cases hn
      · intro kv hkv
        have := hkeys kv hkv
        omega
  | cons p rest =>
      show InvParent ⟨roots,
        MindMapNode.mk (s.ctr + 1) line.content line.level true [] :: p :: rest,
        (s.ctr + 1, p.id) :: s.pmap, s.ctr + 1⟩
      unfold InvParent
      dsimp only []
      have hpfl : p ∈ flattenNodes (p :: rest) :=
        mem_flattenNodes_self (List.mem_cons_self _ _)
      refine ⟨forestRel_parentEdge_extend hbr' (by omega) hr', ?_, ?_, ?_, ?_,
        idBound_mono hbr' (by omega), ?_, ?_⟩
      · refine forestRel_cons.2 ⟨?_, ?_,
          forestRel_parentEdge_extend hbs' (by omega) hs'⟩
        · intro c hc
          simp at hc
        · intro n hn c _
          simp [flattenNodes] at hn
      · rw [List.chain'_cons]
        refine ⟨?_, chain_parentEdge_extend hbs' (by omega) hch'⟩
        show List.lookup _ _ = some p.id
        simp only [MindMapNode.id_mk]
        exact lookup_cons_self _ _ _
      · intro r hr
        have hb : r.id ≤ s.ctr := hbr' r (mem_flattenNodes_self hr)
        rw [lookup_cons_ne r.id _ _ _ (by omega)]
        exact hrn' r hr
      · intro b hb
        rw [getLast?_cons_bottom, Option.some_inj] at hb
        subst hb
        show List.lookup (bottomOf p rest).id _ = none
        have hmem : bottomOf p rest ∈ flattenNodes (p :: rest) :=
          mem_flattenNodes_self (bottomOf_mem rest p)
        have hbd : (bottomOf p rest).id ≤ s.ctr := hbs' _ hmem
        rw [lookup_cons_ne _ _ _ _ (by omega)]
        exact hbn' _ (getLast?_cons_bottom rest p)
      · refine idBound_cons.2 ⟨by simp, ?_, idBound_mono hbs' (by omega)⟩
        intro n hn
        simp [flattenNodes] at hn
      · intro kv hkv
        rcases List.mem_cons.1 hkv with rfl | hkv
        · simp
        · have := hkeys kv hkv
          omega

theorem buildRun_parent (lines : List ParsedLine) :
    ∀ s : BuildState, InvParent s → InvParent (lines.foldl buildStep s) := by
  induction lines with
  | nil =>
      intro s h
      exact h
  | cons a t ih =>
      intro s h
      exact ih _ (buildStep_parent a h)

/-- C10: immediately after `buildMindMapTree` returns, the recorded
`node.parent = parent` assignments (the trace `buildParentMap`) are mutually
consistent with the children structure: every root of the returned forest
has no recorded parent, and every child's recorded parent id is exactly the
id of the node whose `children` list contains it. -/
theorem build_parent_consistent (ctr0 : Nat) (lines : List ParsedLine) :
    (∀ r ∈ buildMindMapTree ctr0 lines,
      List.lookup r.id (buildParentMap ctr0 lines) = none) ∧
    (∀ n ∈ flattenNodes (buildMindMapTree ctr0 lines), ∀ c ∈ n.children,
      List.lookup c.id (buildParentMap ctr0 lines) = some n.id) := by
  unfold buildMindMapTree buildParentMap
  by_cases hl : lines.isEmpty
  · rw [if_pos hl]
    refine ⟨fun r hr => absurd hr (List.not_mem_nil r), ?_⟩
    intro n hn
    rw [flattenNodes_nil] at hn
    cases hn
  · rw [if_neg hl]
    have hinit : InvParent ⟨[], [], [], ctr0⟩ := by
      unfold InvParent
      dsimp only []
      refine ⟨forestRel_nil _, forestRel_nil _, List.chain'_nil,
        ?_, ?_, ?_, ?_, ?_⟩
      · intro r hr
        cases hr
      · intro b hb
        cases hb
      · intro n hn
        rw [flattenNodes_nil] at hn
        cases hn
      · intro n hn
        rw [flattenNodes_nil] at hn
        cases hn
      · intro kv hkv
        cases hkv
    have hinv : InvParent (buildRun ctr0 lines) := buildRun_parent lines _ hinit
    obtain ⟨her, hes, hch, hrn, hbn, _, _, _⟩ := hinv
    have hrel := popAttach_rel (parentEdge (buildRun ctr0 lines).pmap)
      (parentEdge_transport_p _) (parentEdge_transport_c _)
      0 (buildRun ctr0 lines).roots (buildRun ctr0 lines).stack her hes hch
    have hbots := popAttach_bottoms 0 (buildRun ctr0 lines).roots
      (buildRun ctr0 lines).stack (buildRun ctr0 lines).pmap hrn hbn
    exact ⟨hbots.1, hrel.1⟩

/-- Witness for `build_parent_consistent` on the depth-skip build: the root
has no recorded parent, and the child's recorded parent is the root. -/
theorem build_parent_consistent_witness :
    List.lookup
        (MindMapNode.mk 1 [' '] 0 true [MindMapNode.mk 2 [' '] 3 true []]).id
        (buildParentMap 0 [⟨[' '], 0, 1⟩, ⟨[' '], 3, 2⟩]) = none ∧
      List.lookup (MindMapNode.mk 2 [' '] 3 true []).id
        (buildParentMap 0 [⟨[' '], 0, 1⟩, ⟨[' '], 3, 2⟩])
        = some (MindMapNode.mk 1 [' '] 0 true
            [MindMapNode.mk 2 [' '] 3 true []]).id :=
  ⟨(build_parent_consistent 0 [⟨[' '], 0, 1⟩, ⟨[' '], 3, 2⟩]).1
      (MindMapNode.mk 1 [' '] 0 true [MindMapNode.mk 2 [' '] 3 true []])
      (by
        rw [show buildMindMapTree 0 [⟨[' '], 0, 1⟩, ⟨[' '], 3, 2⟩]
            = [MindMapNode.mk 1 [' '] 0 true [MindMapNode.mk 2 [' '] 3 true []]]
            from rfl]
        exact List.mem_cons_self _ _),
    (build_parent_consistent 0 [⟨[' '], 0, 1⟩, ⟨[' '], 3, 2⟩]).2
      (MindMapNode.mk 1 [' '] 0 true [MindMapNode.mk 2 [' '] 3 true []])
      (by
        rw [show buildMindMapTree 0 [⟨[' '], 0, 1⟩, ⟨[' '], 3, 2⟩]
            = [MindMapNode.mk 1 [' '] 0 true [MindMapNode.mk 2 [' '] 3 true []]]
            from rfl,
          flattenNodes_cons]
        exact List.mem_cons_self _ _)
      (MindMapNode.mk 2 [' '] 3 true []) (by simp)⟩

/-- C6: the depth-skip scenario.  Parsing `"Root\n      Deep child"` (second
line with six leading spaces, classifier depth 3) yields a single root
labelled `"Root"` at level 0 whose only child is `"Deep child"` at level 3:
the skip is accepted as a direct child and no synthetic nodes appear. -/
theorem depth_skip_direct_child :
    parseTextToMindMap 0 (("Root\n      Deep child" : String).toList) =
      [.mk 1 (("Root" : String).toList) 0 true
        [.mk 2 (("Deep child" : String).toList) 3 true []]] := rfl
